import Mathlib

/-!
Verification of the clinical post-processing core of the Medgemma scribe
repository: the entity classifier and aggregator, unit normalizer,
attribute linker, negation detector and therapy scan of `src/ner.py`, and
the section parser of `src/utils.py`.

Texts are modeled as lists of characters (`Str`), Python machine floats as
exact rationals, and the upstream token-classification model (an external
collaborator) as an input sequence of labeled spans.  All definitions are
executable; claims are settled by theorems about them.
-/

open List

abbrev Str := List Char

def strL (s : String) : Str := s.toList

/-! ## ASCII character model of the Python `str` primitives used by the code -/

/-- ASCII model of `str.lower` on one character. -/
def asciiLower (c : Char) : Char :=
  if 65 ≤ c.toNat ∧ c.toNat ≤ 90 then Char.ofNat (c.toNat + 32) else c

/-- ASCII model of `str.upper` on one character. -/
def asciiUpper (c : Char) : Char :=
  if 97 ≤ c.toNat ∧ c.toNat ≤ 122 then Char.ofNat (c.toNat - 32) else c

def lowerS (s : Str) : Str := s.map asciiLower

def upperS (s : Str) : Str := s.map asciiUpper

/-- Decimal digit, the character class of the regex `\d`. -/
def isDigitC (c : Char) : Bool := 48 ≤ c.toNat ∧ c.toNat ≤ 57

/-- Python whitespace: the character class of `str.strip`, `float` and the
regex `\s` (ASCII part: space, tab, newline, carriage return, vertical
tab, form feed). -/
def isPyWs (c : Char) : Bool :=
  c.toNat = 32 ∨ c.toNat = 9 ∨ c.toNat = 10 ∨ c.toNat = 13 ∨ c.toNat = 11 ∨ c.toNat = 12

/-- Word character, the character class of the regex `\w` used by `\b`. -/
def isWordChar (c : Char) : Bool :=
  (97 ≤ c.toNat ∧ c.toNat ≤ 122) ∨ (65 ≤ c.toNat ∧ c.toNat ≤ 90) ∨
  (48 ≤ c.toNat ∧ c.toNat ≤ 57) ∨ c.toNat = 95

/-! ## Python string operations -/

/-- Python slice `s[a:b]` for nonnegative bounds: both ends clamp. -/
def pySlice (s : Str) (a b : Nat) : Str := (s.take b).drop a

/-- Python `str.strip()`. -/
def pyStrip (s : Str) : Str :=
  ((s.dropWhile isPyWs).reverse.dropWhile isPyWs).reverse

def pyStartsWith (s pre : Str) : Bool := pre.isPrefixOf s

def pyEndsWith (s suf : Str) : Bool := suf.isSuffixOf s

/-- Python `str.find`: index of the first occurrence of `needle`,
accumulator-passing worker. -/
def pyFindAux (needle : Str) : Str → Nat → Option Nat
  | [], i => if needle.isPrefixOf ([] : Str) then some i else none
  | c :: t, i => if needle.isPrefixOf (c :: t) then some i else pyFindAux needle t (i + 1)

def pyFind (hay needle : Str) : Option Nat := pyFindAux needle hay 0

/-- Python `str.replace`: replace every non-overlapping occurrence of
`pat`, scanning left to right.  Fuel-indexed worker; fuel `s.length`
always suffices because each step consumes at least one character. -/
def replaceAllAux (pat rep : Str) : Nat → Str → Str
  | 0, s => s
  | fuel + 1, s =>
    if pat ≠ [] ∧ pat.isPrefixOf s then rep ++ replaceAllAux pat rep fuel (s.drop pat.length)
    else
      match s with
      | [] => []
      | c :: t => c :: replaceAllAux pat rep fuel t

def replaceAll (pat rep s : Str) : Str := replaceAllAux pat rep s.length s

/-! ## Python `float` on decimal literals, and `%.4g` formatting

Machine floats are modeled as exact rationals; the program only ever
parses short decimal literals and divides or multiplies by 1000. -/

def digitVal (c : Char) : Nat := c.toNat - 48

def intOfNat (s : Str) : Nat := s.foldl (fun a c => 10 * a + digitVal c) 0

/-- Sign handling of Python `float(str)`: a leading `-` or `+` is
consumed and yields the sign. -/
def pySign : Str → ℤ × Str
  | '-' :: r => (-1, r)
  | '+' :: r => (1, r)
  | t => (1, t)

/-- The part of Python `float(str)` after the integer digits: either a
fractional part introduced by a dot, or only trailing whitespace. -/
def parseTail (sgn : ℤ) (ip : Str) : Str → Option ℚ
  | '.' :: r2 =>
    let fp := r2.takeWhile isDigitC
    let r3 := r2.dropWhile isDigitC
    if ip.length + fp.length = 0 then none
    else if r3.all isPyWs then
      some (Rat.divInt (sgn * (intOfNat ip * 10 ^ fp.length + intOfNat fp)) (10 ^ fp.length))
    else none
  | r1 =>
    if ip = [] then none
    else if r1.all isPyWs then some (Rat.divInt (sgn * intOfNat ip) 1)
    else none

/-- Model of Python `float(str)` restricted to optionally signed decimal
literals with surrounding whitespace (no exponent, underscore, inf or
nan: none of those is reachable from this program's inputs).  The value
is built with `Rat.divInt` so that it evaluates inside the kernel. -/
def parseFloat (s : Str) : Option ℚ :=
  let st := pySign (s.dropWhile isPyWs)
  parseTail st.1 (st.2.takeWhile isDigitC) (st.2.dropWhile isDigitC)

def stripZeros (l : Str) : Str := (l.reverse.dropWhile (fun c => c = '0')).reverse

/-- Floor of the base-10 logarithm of a positive natural, via its digit
count (kernel-reducible, unlike `Nat.log`). -/
def natLog10 (n : Nat) : Nat := (Nat.toDigits 10 n).length - 1

/-- Round the fraction `a / b` half to even, the rounding used when a
float is formatted. -/
def rheNat (a b : Nat) : Nat :=
  let f := a / b
  let r := a % b
  if 2 * r < b then f
  else if b < 2 * r then f + 1
  else if f % 2 = 0 then f else f + 1

def sciExpDigits (e : ℤ) : Str :=
  let ed := Nat.toDigits 10 e.natAbs
  let ed2 := if ed.length < 2 then '0' :: ed else ed
  (if e < 0 then '-' else '+') :: ed2

/-- Format the positive fraction `n / d` as Python `format(x, ".4g")`
does: round to 4 significant digits, use fixed notation when the decimal
exponent lies in `[-4, 4)` and scientific notation otherwise, and strip
trailing zeros.  Works on numerator and denominator directly so every
step is kernel-computable. -/
def formatPosND (n d : Nat) : Str :=
  let e : ℤ :=
    if d ≤ n then (natLog10 (n / d) : ℤ)
    else -((natLog10 ((d + n - 1) / n - 1) : ℤ) + 1)
  let ab : Nat × Nat :=
    if e ≤ 3 then (n * 10 ^ (3 - e).toNat, d) else (n, d * 10 ^ (e - 3).toNat)
  let m0 := rheNat ab.1 ab.2
  let m := if m0 = 10000 then 1000 else m0
  let e' := if m0 = 10000 then e + 1 else e
  let digs := Nat.toDigits 10 m
  if -4 ≤ e' ∧ e' < 4 then
    if 0 ≤ e' then
      let k := e'.toNat + 1
      let ip := digs.take k
      let fp := stripZeros (digs.drop k)
      if fp = [] then ip else ip ++ '.' :: fp
    else
      '0' :: '.' :: (List.replicate ((-e').toNat - 1) '0' ++ stripZeros digs)
  else
    let fp := stripZeros digs.tail
    (digs.take 1 ++ (if fp = [] then [] else '.' :: fp)) ++ 'e' :: sciExpDigits e'

/-- Python `format(x, ".4g")` on an exact rational. -/
def format4g (q : ℚ) : Str :=
  if q.num = 0 then ['0']
  else if q.num < 0 then '-' :: formatPosND q.num.natAbs q.den
  else formatPosND q.num.natAbs q.den

/-- Exact division of a rational by 1000, phrased through `Rat.divInt` so
it evaluates in the kernel; equal to `q / 1000`. -/
def qDiv1000 (q : ℚ) : ℚ := Rat.divInt q.num (q.den * 1000)

/-- Exact multiplication of a rational by 1000; equal to `q * 1000`. -/
def qMul1000 (q : ℚ) : ℚ := Rat.divInt (q.num * 1000) q.den

/-- Python substring membership `needle in hay`. -/
def strContains (hay needle : Str) : Bool := (pyFind hay needle).isSome

/-! ## The compiled regular expressions of `ClinicalNER.__init__`

A compiled pattern is modeled by its `matchAt` function: the length of
the match the engine produces at a given scan position, `none` when the
position does not match.  `prev` is the character just before the scan
position, which the word-boundary assertion `\b` inspects. -/

structure RePattern where
  matchAt : Option Char → Str → Option Nat

/-- Leading `\b` of the patterns below: since every alternative begins
with a word character, the boundary holds exactly when the preceding
character is absent or not a word character. -/
def prevNonWord : Option Char → Bool
  | none => true
  | some c => ! isWordChar c

/-- Case-insensitive literal match of `lit` (given lowercase) against the
front of `s`. -/
def ciMatch (lit s : Str) : Bool := lit = lowerS (s.take lit.length)

/-- Trailing `\b` after a match of length `n`: every alternative ends
with a word character, so the boundary holds exactly when the next
character is absent or not a word character. -/
def boundaryAfter (s : Str) (n : Nat) : Bool :=
  match s.drop n with
  | [] => true
  | c :: _ => ! isWordChar c

/-- Matcher of a case-insensitive regex `\b(lit1|lit2|...)\b` whose
alternatives are literals: the engine tries the alternatives left to
right and moves to the next alternative when the literal or the trailing
boundary fails. -/
def altMatchAt (alts : List Str) (prev : Option Char) (s : Str) : Option Nat :=
  if prevNonWord prev then
    alts.findSome? fun lit =>
      if ciMatch lit s && boundaryAfter s lit.length then some lit.length else none
  else none

/-- Matcher of the dosage regex `\b\d+(\.\d+)?\s?(mg|mcg|g|ml)\b`
(IGNORECASE).  The greedy digit runs never need to give characters back:
every later element of the pattern begins with a non-digit. -/
def doseMatchAt (prev : Option Char) (s : Str) : Option Nat :=
  if prevNonWord prev then
    let ds := s.takeWhile isDigitC
    if ds.length = 0 then none
    else
      let r1 := s.drop ds.length
      let fracLen : Nat :=
        match r1 with
        | '.' :: r2 => if (r2.takeWhile isDigitC).length = 0 then 0 else (r2.takeWhile isDigitC).length + 1
        | _ => 0
      let r2 := r1.drop fracLen
      let wsLen : Nat :=
        match r2 with
        | c :: _ => if isPyWs c then 1 else 0
        | [] => 0
      let r3 := r2.drop wsLen
      ([strL "mg", strL "mcg", strL "g", strL "ml"]).findSome? fun u =>
        if ciMatch u r3 && boundaryAfter r3 u.length then
          some (ds.length + fracLen + wsLen + u.length)
        else none
  else none

/-- `self.dose_pattern` (src/ner.py lines 20-23). -/
def dose_pattern : RePattern := ⟨doseMatchAt⟩

/-- `self.frequency_pattern` (src/ner.py lines 25-28). -/
def frequency_pattern : RePattern :=
  ⟨altMatchAt [strL "once daily", strL "twice daily", strL "thrice daily", strL "daily",
    strL "bid", strL "tid", strL "qid"]⟩

/-- `self.route_pattern` (src/ner.py lines 30-33). -/
def route_pattern : RePattern :=
  ⟨altMatchAt [strL "oral", strL "iv", strL "intravenous", strL "topical", strL "injection"]⟩

/-- `self.therapy_pattern` (src/ner.py lines 36-39); the optional
`[- ]?` of `post[- ]?op chemo` expands, in the order the engine tries it,
to the hyphen, space and empty variants. -/
def therapy_pattern : RePattern :=
  ⟨altMatchAt [strL "chemotherapy", strL "chemo", strL "radiotherapy",
    strL "radiation therapy", strL "radio therapy", strL "post-op chemo",
    strL "post op chemo", strL "postop chemo", strL "postoperative chemotherapy"]⟩

/-- `self.negation_cues` (src/ner.py line 17). -/
def negation_cues : List Str :=
  [strL "no", strL "denies", strL "without", strL "not", strL "never"]

/-- `re.Pattern.search`: the match at the leftmost matching position. -/
def reSearchAux (p : RePattern) : Option Char → Str → Option Str
  | prev, [] =>
    match p.matchAt prev [] with
    | some L => some (([] : Str).take L)
    | none => none
  | prev, c :: rest =>
    match p.matchAt prev (c :: rest) with
    | some L => some ((c :: rest).take L)
    | none => reSearchAux p (some c) rest

def reSearch (p : RePattern) (s : Str) : Option Str := reSearchAux p none s

/-- `re.Pattern.finditer`: all matches, scanning left to right and
resuming after the end of each match (after one character for an empty
match).  Fuel-indexed; every step consumes at least one character, so
fuel `s.length + 1` is exact. -/
def reFinditerAux (p : RePattern) : Nat → Option Char → Str → List Str
  | 0, _, _ => []
  | _ + 1, prev, [] =>
    match p.matchAt prev [] with
    | some L => [([] : Str).take L]
    | none => []
  | fuel + 1, prev, c :: rest =>
    match p.matchAt prev (c :: rest) with
    | none => reFinditerAux p fuel (some c) rest
    | some 0 => ([] : Str) :: reFinditerAux p fuel (some c) rest
    | some (L + 1) =>
      (c :: rest).take (L + 1) ::
        reFinditerAux p fuel (((c :: rest).take (L + 1)).getLast?) ((c :: rest).drop (L + 1))

def reFinditer (p : RePattern) (s : Str) : List Str := reFinditerAux p (s.length + 1) none s

/-- The append-if-absent loop of the code, generalized over its starting
accumulator. -/
def dedupFAux {α : Type} [DecidableEq α] (acc : List α) (xs : List α) : List α :=
  xs.foldl (fun a x => if x ∈ a then a else a ++ [x]) acc

/-- First-occurrence deduplication: the code's append-if-absent loop, and
the model of `list(set(xs))` (whose Python order is unspecified — only
membership in it is relied on by the claims). -/
def dedupF {α : Type} [DecidableEq α] (xs : List α) : List α := dedupFAux [] xs

/-! ## `ClinicalNER` methods (src/ner.py) -/

/-- `ClinicalNER.detect_negation` (src/ner.py lines 43-50). -/
def detect_negation (phrase text : Str) : Bool :=
  match pyFind (lowerS text) (lowerS phrase) with
  | none => false
  | some idx =>
    negation_cues.any fun cue => strContains (pySlice (lowerS text) (idx - 25) idx) cue

/-- `ClinicalNER.normalize_units` (src/ner.py lines 54-70).  The bare
`except: pass` of the source corresponds to the `none` branches: a failed
`float(...)` parse falls through to `return dose`. -/
def normalize_units (dose : Str) : Str :=
  let value := replaceAll [' '] [] (lowerS dose)
  if pyEndsWith value (strL "mcg") then
    match parseFloat (replaceAll (strL "mcg") [] value) with
    | some num => format4g (qDiv1000 num) ++ strL " mg"
    | none => dose
  else if pyEndsWith value (strL "g") then
    match parseFloat (replaceAll (strL "g") [] value) with
    | some num => format4g (qMul1000 num) ++ strL " mg"
    | none => dose
  else dose

/-- `ClinicalNER.extract_pattern_nearby` (src/ner.py lines 74-79). -/
def extract_pattern_nearby (p : RePattern) (text : Str) (index : Nat) (window : Nat := 50) :
    Option Str :=
  reSearch p (pySlice text (index - window) (index + window))

/-- `ClinicalNER.extract_therapies` (src/ner.py lines 83-90). -/
def extract_therapies (text : Str) : List Str := dedupF (reFinditer therapy_pattern text)

/-- One span of the upstream labeler output, with the dictionary keys the
code reads (`word`, `entity_group`, `start`). -/
structure Ent where
  word : Str
  entity_group : Str
  start : Nat
deriving DecidableEq

/-- The medication record built at src/ner.py lines 129-135. -/
structure Med where
  name : Str
  dosage : Option Str
  frequency : Option Str
  route : Option Str
  negated : Bool
deriving DecidableEq

/-- An entry of the `other_entities` bucket (src/ner.py line 141). -/
structure OtherEnt where
  label : Str
  value : Str
deriving DecidableEq

/-- The dictionary returned by `ClinicalNER.extract` (lines 145-150). -/
structure ExtractionResult where
  symptoms : List Str
  medications : List Med
  therapies : List Str
  other_medical_entities : List OtherEnt
deriving DecidableEq

/-- `SYMPTOM_LABELS` (src/ner.py line 103). -/
def SYMPTOM_LABELS : List Str :=
  [strL "SIGN_SYMPTOM", strL "DISEASE", strL "SIGN", strL "SYMPTOM",
    strL "CONDITION", strL "FINDING"]

/-- `MEDICATION_LABELS` (src/ner.py line 104). -/
def MEDICATION_LABELS : List Str :=
  [strL "CHEMICAL", strL "MEDICATION", strL "DRUG", strL "THERAPEUTIC_PROCEDURE",
    strL "PHARMACOLOGICAL_SUBSTANCE"]

def isSymLabel (e : Ent) : Bool := decide (upperS e.entity_group ∈ SYMPTOM_LABELS)

def isMedLabel (e : Ent) : Bool := decide (upperS e.entity_group ∈ MEDICATION_LABELS)

/-- The medication record the loop body builds for one span (src/ner.py
lines 116-135).  `if dose else None` is Python truthiness: both a missing
and an empty dosage match produce `None` (an empty match is unreachable
for this pattern but kept for fidelity). -/
def buildMed (text : Str) (ent : Ent) : Med :=
  { name := ent.word,
    dosage :=
      match extract_pattern_nearby dose_pattern text ent.start with
      | some d => if d = [] then none else some (normalize_units d)
      | none => none,
    frequency := extract_pattern_nearby frequency_pattern text ent.start,
    route := extract_pattern_nearby route_pattern text ent.start,
    negated := detect_negation ent.word text }

/-- The classification loop of `ClinicalNER.extract` (lines 106-141),
carrying the three accumulators. -/
def extractLoop (text : Str) :
    List Ent → List Str → List Med → List OtherEnt → List Str × List Med × List OtherEnt
  | [], syms, meds, others => (syms, meds, others)
  | ent :: rest, syms, meds, others =>
    if isSymLabel ent then extractLoop text rest (syms ++ [ent.word]) meds others
    else if isMedLabel ent then
      extractLoop text rest syms
        (if buildMed text ent ∈ meds then meds else meds ++ [buildMed text ent]) others
    else
      extractLoop text rest syms meds
        (others ++ [{ label := upperS ent.entity_group, value := ent.word }])

/-- `ClinicalNER.extract` (src/ner.py lines 94-150).  The call
`self.ner(text)` invokes the external token-classification model, an
external collaborator; its output is the `ner_results` input here. -/
def extract (ner_results : List Ent) (text : Str) : ExtractionResult :=
  let r := extractLoop text ner_results [] [] []
  { symptoms := dedupF r.1,
    medications := r.2.1,
    therapies := extract_therapies text,
    other_medical_entities := r.2.2 }

/-! ## The section parser (src/utils.py, `parse_summary_to_dict`) -/

/-- Python dict assignment `d[k] = v` on an insertion-ordered association
list: overwrite in place when the key exists, append otherwise. -/
def updateDict (d : List (Str × Str)) (k v : Str) : List (Str × Str) :=
  if d.any (fun p => p.1 == k) then d.map (fun p => if p.1 == k then (k, v) else p)
  else d ++ [(k, v)]

/-- Python truthiness of an optional string (`if current_section:`). -/
def pyTruthyOpt : Option Str → Bool
  | none => false
  | some s => ! s.isEmpty

/-- `"\n".join(buffer).strip()`. -/
def joined (buffer : List Str) : Str := pyStrip (List.intercalate ['\n'] buffer)

/-- The heading test of src/utils.py line 22: starts with `**`, ends with
`**` or with `:` (applied to the stripped line). -/
def isHeadingLine (line : Str) : Bool :=
  pyStartsWith line (strL "**") && (pyEndsWith line (strL "**") || pyEndsWith line (strL ":"))

/-- Heading normalization of src/utils.py line 29: remove every `*` and
`:`, then strip. -/
def headingName (line : Str) : Str :=
  pyStrip (replaceAll [':'] [] (replaceAll ['*'] [] line))

structure PState where
  sections : List (Str × Str)
  current : Option Str
  buffer : List Str
deriving DecidableEq

/-- The body of the line loop of `parse_summary_to_dict` (src/utils.py
lines 15-33). -/
def processLine (st : PState) (raw : Str) : PState :=
  let line := pyStrip raw
  if line = [] then st
  else if isHeadingLine line then
    { sections :=
        if pyTruthyOpt st.current then updateDict st.sections (st.current.getD []) (joined st.buffer)
        else st.sections,
      current := some (headingName line),
      buffer := [] }
  else { st with buffer := st.buffer ++ [line] }

/-- `parse_summary_to_dict` (src/utils.py lines 4-42). -/
def parse_summary_to_dict (summary_text : Str) : List (Str × Str) :=
  let fin := (summary_text.splitOn '\n').foldl processLine ⟨[], none, []⟩
  if pyTruthyOpt fin.current && ! fin.buffer.isEmpty then
    updateDict fin.sections (fin.current.getD []) (joined fin.buffer)
  else if fin.sections.isEmpty && ! fin.buffer.isEmpty then
    updateDict fin.sections (strL "Summary") (joined fin.buffer)
  else fin.sections

/-- The character preceding scan position `i` of a string scanned with
initial preceding character `prev`. -/
def prevAtP (prev : Option Char) (s : Str) (i : Nat) : Option Char :=
  if i = 0 then prev else s[i - 1]?

/-- The numeric value of the digit string `ds` followed by the optional
fractional part `fr` (either empty or a dot followed by digits): the
float the dosage branch parses. -/
def dval (ds fr : Str) : ℚ :=
  match fr with
  | '.' :: fdig => Rat.divInt (intOfNat ds * 10 ^ fdig.length + intOfNat fdig) (10 ^ fdig.length)
  | _ => Rat.divInt (intOfNat ds) 1

/-- The window the Attribute Linker inspects: the Python slice
`text[max(0, index - window) : index + window]`. -/
def linkerWindow (text : Str) (index window : Nat) : Str :=
  pySlice text (index - window) (index + window)

/-! ## Helper lemmas -/

lemma isPrefixOf_true_iff {A B : Str} : A.isPrefixOf B = true ↔ A <+: B :=
  List.isPrefixOf_iff_prefix

lemma isPrefixOf_false_iff {A B : Str} : A.isPrefixOf B = false ↔ ¬ A <+: B := by
  rw [← isPrefixOf_true_iff]
  cases h : A.isPrefixOf B <;> simp

lemma mem_dedupFAux {α : Type} [DecidableEq α] (xs : List α) :
    ∀ (acc : List α) (a : α), a ∈ dedupFAux acc xs ↔ a ∈ acc ∨ a ∈ xs := by
  induction xs with
  | nil => intro acc a; simp [dedupFAux]
  | cons x t ih =>
    intro acc a
    show a ∈ dedupFAux (if x ∈ acc then acc else acc ++ [x]) t ↔ _
    by_cases hx : x ∈ acc
    · simp only [hx, if_true, ih]
      constructor
      · rintro (h | h)
        · exact Or.inl h
        · exact Or.inr (List.mem_cons_of_mem _ h)
      · rintro (h | h)
        · exact Or.inl h
        · rcases List.mem_cons.mp h with h | h
          · exact Or.inl (h ▸ hx)
          · exact Or.inr h
    · simp only [hx, if_false, ih, List.mem_append, List.mem_singleton, List.mem_cons]
      tauto

lemma mem_dedupF {α : Type} [DecidableEq α] (xs : List α) (a : α) :
    a ∈ dedupF xs ↔ a ∈ xs := by
  rw [dedupF, mem_dedupFAux]
  simp

lemma dedupFAux_nodup {α : Type} [DecidableEq α] (xs : List α) :
    ∀ acc : List α, acc.Nodup → (dedupFAux acc xs).Nodup := by
  induction xs with
  | nil => intro acc h; exact h
  | cons x t ih =>
    intro acc hacc
    show (dedupFAux (if x ∈ acc then acc else acc ++ [x]) t).Nodup
    by_cases hx : x ∈ acc
    · simpa [hx] using ih acc hacc
    · refine ih _ ?_
      simp only [hx, if_false, List.nodup_append]
      refine ⟨hacc, List.nodup_singleton x, ?_⟩
      intro a ha hax
      rw [List.mem_singleton] at hax
      exact hx (hax ▸ ha)

lemma dedupF_nodup {α : Type} [DecidableEq α] (xs : List α) : (dedupF xs).Nodup :=
  dedupFAux_nodup xs [] List.nodup_nil

/-- The symptom and medication label lists are disjoint, so the two
branch tests never both fire. -/
lemma sym_not_med (e : Ent) (h : isSymLabel e = true) : isMedLabel e = false := by
  simp only [isSymLabel, isMedLabel, decide_eq_true_eq, decide_eq_false_iff_not] at h ⊢
  intro hm
  simp only [SYMPTOM_LABELS, List.mem_cons, List.not_mem_nil, or_false] at h
  rcases h with h | h | h | h | h | h <;> rw [h] at hm <;> exact absurd hm (by decide)

/-- The classification loop splits into three independent folds: symptom
texts are appended, medication records are dedup-appended, everything
else lands in the other bucket with its uppercased label. -/
lemma extractLoop_spec (text : Str) :
    ∀ (ents : List Ent) (syms : List Str) (meds : List Med) (others : List OtherEnt),
      extractLoop text ents syms meds others =
        (syms ++ (ents.filter isSymLabel).map Ent.word,
         dedupFAux meds ((ents.filter isMedLabel).map (buildMed text)),
         others ++ (ents.filter fun e => ! isSymLabel e && ! isMedLabel e).map
           (fun e => { label := upperS e.entity_group, value := e.word })) := by
  intro ents
  induction ents with
  | nil => intro syms meds others; simp [extractLoop, dedupFAux]
  | cons e rest ih =>
    intro syms meds others
    by_cases h1 : isSymLabel e
    · simp [extractLoop, h1, ih, List.filter_cons, dedupFAux, sym_not_med e h1]
    · by_cases h2 : isMedLabel e
      · simp [extractLoop, h1, h2, ih, List.filter_cons, dedupFAux]
      · simp [extractLoop, h1, h2, ih, List.filter_cons]

lemma extract_symptoms_eq (spans : List Ent) (text : Str) :
    (extract spans text).symptoms = dedupF ((spans.filter isSymLabel).map Ent.word) := by
  simp [extract, extractLoop_spec]

lemma extract_medications_eq (spans : List Ent) (text : Str) :
    (extract spans text).medications = dedupF ((spans.filter isMedLabel).map (buildMed text)) := by
  simp [extract, extractLoop_spec, dedupF]

lemma extract_other_eq (spans : List Ent) (text : Str) :
    (extract spans text).other_medical_entities =
      (spans.filter fun e => ! isSymLabel e && ! isMedLabel e).map
        (fun e => { label := upperS e.entity_group, value := e.word }) := by
  simp [extract, extractLoop_spec]

lemma extract_therapies_eq (spans : List Ent) (text : Str) :
    (extract spans text).therapies = extract_therapies text := rfl

/-- `pyFindAux` characterization, success case: the reported index is the
least position where the needle is a prefix of the remaining text. -/
lemma pyFindAux_eq_some (nd : Str) :
    ∀ (hay : Str) (i k : Nat), pyFindAux nd hay i = some k →
      i ≤ k ∧ nd <+: hay.drop (k - i) ∧ ∀ j < k - i, ¬ nd <+: hay.drop j := by
  intro hay
  induction hay with
  | nil =>
    intro i k h
    unfold pyFindAux at h
    split at h
    · rename_i hp
      cases h
      refine ⟨le_refl _, by simpa using isPrefixOf_true_iff.mp hp, by omega⟩
    · cases h
  | cons c t ih =>
    intro i k h
    unfold pyFindAux at h
    split at h
    · rename_i hp
      cases h
      refine ⟨le_refl _, by simpa using isPrefixOf_true_iff.mp hp, by omega⟩
    · rename_i hp
      have hnp : ¬ nd <+: (c :: t) := by
        rw [← isPrefixOf_true_iff]
        simpa using hp
      obtain ⟨hik, hpre, hmin⟩ := ih (i + 1) k h
      refine ⟨by omega, ?_, ?_⟩
      · have : k - i = (k - (i + 1)) + 1 := by omega
        rw [this]
        simpa using hpre
      · intro j hj
        cases j with
        | zero => simpa using hnp
        | succ j' =>
          have : j' < k - (i + 1) := by omega
          simpa using hmin j' this

/-- `pyFindAux` characterization, failure case. -/
lemma pyFindAux_eq_none (nd : Str) :
    ∀ (hay : Str) (i : Nat), pyFindAux nd hay i = none → ∀ j, ¬ nd <+: hay.drop j := by
  intro hay
  induction hay with
  | nil =>
    intro i h j
    unfold pyFindAux at h
    split at h
    · cases h
    · rename_i hp
      rw [show List.drop j ([] : Str) = [] by simp, ← isPrefixOf_true_iff]
      simpa using hp
  | cons c t ih =>
    intro i h j
    unfold pyFindAux at h
    split at h
    · cases h
    · rename_i hp
      cases j with
      | zero =>
        rw [← isPrefixOf_true_iff]
        simpa using hp
      | succ j' => simpa using ih (i + 1) h j'

lemma pyFind_eq_some {hay nd : Str} {k : Nat} (h : pyFind hay nd = some k) :
    nd <+: hay.drop k ∧ ∀ j < k, ¬ nd <+: hay.drop j := by
  obtain ⟨-, hpre, hmin⟩ := pyFindAux_eq_some nd hay 0 k h
  simpa using ⟨hpre, hmin⟩

lemma pyFind_eq_none {hay nd : Str} (h : pyFind hay nd = none) :
    ∀ j, ¬ nd <+: hay.drop j :=
  pyFindAux_eq_none nd hay 0 h


lemma prevAtP_succ (prev : Option Char) (c : Char) (rest : Str) (k : Nat) :
    prevAtP prev (c :: rest) (k + 1) = prevAtP (some c) rest k := by
  cases k with
  | zero => simp [prevAtP]
  | succ k' => simp [prevAtP]

/-- `re.search` finds nothing exactly when no scan position matches. -/
lemma reSearchAux_eq_none (p : RePattern) :
    ∀ (s : Str) (prev : Option Char),
      reSearchAux p prev s = none ↔
        ∀ i ≤ s.length, p.matchAt (prevAtP prev s i) (s.drop i) = none := by
  intro s
  induction s with
  | nil =>
    intro prev
    constructor
    · intro h i hi
      have hi0 : i = 0 := by simpa using hi
      subst hi0
      unfold reSearchAux at h
      revert h
      cases hm : p.matchAt prev [] <;> simp [prevAtP, hm]
    · intro h
      unfold reSearchAux
      rw [show p.matchAt prev [] = none from by simpa [prevAtP] using h 0 (by simp)]
  | cons c rest ih =>
    intro prev
    constructor
    · intro h i hi
      unfold reSearchAux at h
      revert h
      cases hm : p.matchAt prev (c :: rest) with
      | some L => intro h; cases h
      | none =>
        intro h
        cases i with
        | zero => simpa [prevAtP] using hm
        | succ k =>
          rw [prevAtP_succ, List.drop_succ_cons]
          exact (ih (some c)).mp h k (by simpa using hi)
    · intro h
      unfold reSearchAux
      have h0 : p.matchAt prev (c :: rest) = none := by
        simpa [prevAtP] using h 0 (by simp)
      rw [h0]
      refine (ih (some c)).mpr ?_
      intro k hk
      have := h (k + 1) (by simpa using hk)
      rwa [prevAtP_succ, List.drop_succ_cons] at this

/-- `re.search` success: the result is the match at the least matching
scan position. -/
lemma reSearchAux_eq_some (p : RePattern) :
    ∀ (s : Str) (prev : Option Char) (m : Str),
      reSearchAux p prev s = some m →
        ∃ i, i ≤ s.length ∧
          ∃ L, p.matchAt (prevAtP prev s i) (s.drop i) = some L ∧
            m = (s.drop i).take L ∧
            ∀ j < i, p.matchAt (prevAtP prev s j) (s.drop j) = none := by
  intro s
  induction s with
  | nil =>
    intro prev m h
    unfold reSearchAux at h
    revert h
    cases hm : p.matchAt prev [] with
    | some L =>
      intro h
      cases h
      exact ⟨0, by simp, L, by simpa [prevAtP] using hm, by simp, by omega⟩
    | none => intro h; cases h
  | cons c rest ih =>
    intro prev m h
    unfold reSearchAux at h
    revert h
    cases hm : p.matchAt prev (c :: rest) with
    | some L =>
      intro h
      cases h
      exact ⟨0, by simp, L, by simpa [prevAtP] using hm, by simp, by omega⟩
    | none =>
      intro h
      obtain ⟨i, hi, L, hL, hmEq, hmin⟩ := ih (some c) m h
      refine ⟨i + 1, by simpa using hi, L, ?_, ?_, ?_⟩
      · rwa [prevAtP_succ, List.drop_succ_cons]
      · simpa using hmEq
      · intro j hj
        cases j with
        | zero => simpa [prevAtP] using hm
        | succ j' =>
          rw [prevAtP_succ, List.drop_succ_cons]
          exact hmin j' (by omega)

/-- A take is an infix (in fact a prefix). -/
lemma mid_of_take (s : Str) (n : Nat) : s.take n <:+: s :=
  ⟨[], s.drop n, by simp⟩

lemma mid_cons {m t : Str} (c : Char) (h : m <:+: t) : m <:+: (c :: t) := by
  obtain ⟨A, B, hAB⟩ := h
  exact ⟨c :: A, B, by simp [hAB]⟩

lemma mid_of_drop {m : Str} {s : Str} {n : Nat} (h : m <:+: s.drop n) : m <:+: s := by
  obtain ⟨A, B, hAB⟩ := h
  refine ⟨s.take n ++ A, B, ?_⟩
  rw [List.append_assoc, List.append_assoc]
  rw [List.append_assoc] at hAB
  rw [hAB, List.take_append_drop]

/-- Every string `finditer` returns is a contiguous piece of the scanned
text. -/
lemma mem_reFinditerAux (p : RePattern) :
    ∀ (fuel : Nat) (prev : Option Char) (s : Str) (m : Str),
      m ∈ reFinditerAux p fuel prev s → m <:+: s := by
  intro fuel
  induction fuel with
  | zero => intro prev s m h; simp [reFinditerAux] at h
  | succ f ih =>
    intro prev s m h
    cases s with
    | nil =>
      revert h
      unfold reFinditerAux
      cases hm : p.matchAt prev [] with
      | none => intro h; simp at h
      | some L =>
        intro h
        rw [List.mem_singleton] at h
        subst h
        exact ⟨[], [], by simp⟩
    | cons c rest =>
      revert h
      unfold reFinditerAux
      cases hm : p.matchAt prev (c :: rest) with
      | none =>
        intro h
        exact mid_cons c (ih (some c) rest m h)
      | some L =>
        cases L with
        | zero =>
          intro h
          rcases List.mem_cons.mp h with rfl | h
          · exact ⟨[], c :: rest, by simp⟩
          · exact mid_cons c (ih (some c) rest m h)
        | succ L' =>
          intro h
          rcases List.mem_cons.mp h with rfl | h
          · exact mid_of_take _ _
          · exact mid_of_drop (n := L' + 1) (ih _ _ m h)

lemma mem_extract_therapies {text m : Str} (h : m ∈ extract_therapies text) : m <:+: text := by
  rw [extract_therapies, mem_dedupF] at h
  exact mem_reFinditerAux therapy_pattern _ none text m h

/-! ## Character facts for the unit-normalizer analysis

Every character of a dosage number (digits, the dot, whitespace) has a
code below 65, hence is fixed by lowercasing and distinct from the unit
letters `m`, `c`, `g`, `l`. -/

lemma asciiLower_of_lt {c : Char} (h : c.toNat < 65) : asciiLower c = c := by
  unfold asciiLower
  rw [if_neg (by omega)]

lemma lowerS_of_small {A : Str} (h : ∀ c ∈ A, c.toNat < 65) : lowerS A = A := by
  induction A with
  | nil => rfl
  | cons c t ih =>
    unfold lowerS at ih ⊢
    rw [List.map_cons, asciiLower_of_lt (h c (by simp)), ih (fun x hx => h x (by simp [hx]))]

lemma isDigitC_iff {c : Char} : isDigitC c = true ↔ 48 ≤ c.toNat ∧ c.toNat ≤ 57 := by
  simp [isDigitC]

lemma isPyWs_iff {c : Char} :
    isPyWs c = true ↔
      c.toNat = 32 ∨ c.toNat = 9 ∨ c.toNat = 10 ∨ c.toNat = 13 ∨ c.toNat = 11 ∨ c.toNat = 12 := by
  simp [isPyWs]

lemma char_ne_of_toNat {c d : Char} (h : c.toNat ≠ d.toNat) : c ≠ d := by
  intro hc
  exact h (by rw [hc])

lemma digit_lt65 {c : Char} (h : isDigitC c = true) : c.toNat < 65 := by
  have := isDigitC_iff.mp h
  omega

lemma ws_lt65 {c : Char} (h : isPyWs c = true) : c.toNat < 65 := by
  have := isPyWs_iff.mp h
  omega

lemma digit_not_ws {c : Char} (h : isDigitC c = true) : isPyWs c = false := by
  have h1 := isDigitC_iff.mp h
  cases h2 : isPyWs c
  · rfl
  · exact absurd (isPyWs_iff.mp h2) (by omega)

lemma ws_not_digit {c : Char} (h : isPyWs c = true) : isDigitC c = false := by
  have h1 := isPyWs_iff.mp h
  cases h2 : isDigitC c
  · rfl
  · exact absurd (isDigitC_iff.mp h2) (by omega)

/-! ## takeWhile, dropWhile and filter over appends -/

lemma takeWhile_app_all {p : Char → Bool} {A : Str} (B : Str) (h : ∀ c ∈ A, p c = true) :
    (A ++ B).takeWhile p = A ++ B.takeWhile p := by
  induction A with
  | nil => simp
  | cons c t ih =>
    rw [List.cons_append, List.takeWhile_cons, h c (by simp), ih (fun x hx => h x (by simp [hx]))]
    simp

lemma dropWhile_app_all {p : Char → Bool} {A : Str} (B : Str) (h : ∀ c ∈ A, p c = true) :
    (A ++ B).dropWhile p = B.dropWhile p := by
  induction A with
  | nil => simp
  | cons c t ih =>
    rw [List.cons_append, List.dropWhile_cons, h c (by simp), ih (fun x hx => h x (by simp [hx]))]
    simp

lemma takeWhile_cons_neg {p : Char → Bool} {c : Char} (t : Str) (h : p c = false) :
    (c :: t).takeWhile p = [] := by
  rw [List.takeWhile_cons, h]
  simp

lemma dropWhile_cons_neg {p : Char → Bool} {c : Char} (t : Str) (h : p c = false) :
    (c :: t).dropWhile p = c :: t := by
  rw [List.dropWhile_cons, h]
  simp

/-! ## Suffix helpers -/

lemma pyEndsWith_iff {s suf : Str} : pyEndsWith s suf = true ↔ suf <:+ s :=
  List.isSuffixOf_iff_suffix

lemma pyEndsWith_false_iff {s suf : Str} : pyEndsWith s suf = false ↔ ¬ suf <:+ s := by
  rw [← pyEndsWith_iff]
  cases h : pyEndsWith s suf <;> simp

lemma snoc_suffix_snoc {p l : Str} {x y : Char} :
    (p ++ [x]) <:+ (l ++ [y]) ↔ x = y ∧ p <:+ l := by
  rw [← List.reverse_prefix, List.reverse_append, List.reverse_append]
  simp only [List.reverse_cons, List.reverse_nil, List.nil_append, List.singleton_append]
  rw [List.cons_prefix_cons, List.reverse_prefix]

lemma suffix_app_left {B m : Str} (A : Str) (h : m <:+ B) : m <:+ A ++ B := by
  obtain ⟨t, ht⟩ := h
  exact ⟨A ++ t, by rw [List.append_assoc, ht]⟩

lemma not_suffix_of_last_big {X A : Str} {a : Char}
    (hX : ∀ c ∈ X, c.toNat < 65) (ha : 65 ≤ a.toNat) : ¬ (A ++ [a]) <:+ X := by
  rintro ⟨t, ht⟩
  have : a ∈ X := by
    rw [← ht]
    simp
  have := hX a this
  omega

/-! ## replaceAll lemmas -/

lemma replaceAllAux_nil (pat rep : Str) : ∀ fuel, replaceAllAux pat rep fuel [] = [] := by
  intro fuel
  cases fuel with
  | zero => rfl
  | succ f =>
    unfold replaceAllAux
    rw [if_neg]
    rintro ⟨h1, h2⟩
    cases pat with
    | nil => exact h1 rfl
    | cons c t => simp [List.isPrefixOf] at h2

/-- Replacing a single character by nothing is filtering it out. -/
lemma replaceAll_single (c : Char) (s : Str) :
    replaceAll [c] [] s = s.filter (fun x => x ≠ c) := by
  suffices h : ∀ fuel (s : Str), s.length ≤ fuel →
      replaceAllAux [c] [] fuel s = s.filter (fun x => x ≠ c) by
    exact h s.length s (le_refl _)
  intro fuel
  induction fuel with
  | zero =>
    intro s hs
    rw [show s = [] from List.eq_nil_of_length_eq_zero (by omega)]
    rfl
  | succ f ih =>
    intro s hs
    cases s with
    | nil => rfl
    | cons x t =>
      have hlen : t.length ≤ f := by simpa using Nat.le_of_succ_le_succ hs
      unfold replaceAllAux
      by_cases hcx : c = x
      · subst hcx
        rw [if_pos ⟨by simp, by simp [List.isPrefixOf]⟩]
        show replaceAllAux [c] [] f ((c :: t).drop 1) = _
        rw [List.drop_succ_cons, List.drop_zero, ih t hlen, List.filter_cons]
        simp
      · rw [if_neg (by
          rintro ⟨-, h2⟩
          simp [List.isPrefixOf] at h2
          exact hcx h2)]
        show x :: replaceAllAux [c] [] f t = _
        rw [ih t hlen, List.filter_cons]
        simp [Ne.symm hcx]

/-- Replacing a pattern that occurs exactly once, at the very end. -/
lemma replaceAll_strip_end {pat : Str} {hc : Char} (hpat : pat.head? = some hc) :
    ∀ X : Str, hc ∉ X → replaceAll pat [] (X ++ pat) = X := by
  have hne : pat ≠ [] := by
    cases pat
    · simp at hpat
    · simp
  suffices h : ∀ fuel (X : Str), (X ++ pat).length ≤ fuel → hc ∉ X →
      replaceAllAux pat [] fuel (X ++ pat) = X by
    intro X hX
    exact h (X ++ pat).length X (le_refl _) hX
  intro fuel
  induction fuel with
  | zero =>
    intro X hlen hX
    exfalso
    cases pat
    · exact hne rfl
    · simp at hlen
  | succ f ih =>
    intro X hlen hX
    cases X with
    | nil =>
      unfold replaceAllAux
      rw [if_pos ⟨hne, isPrefixOf_true_iff.mpr (by simp)⟩]
      simp only [List.nil_append, List.drop_length]
      exact replaceAllAux_nil pat [] f
    | cons x t =>
      obtain ⟨pt, hptEq⟩ : ∃ pt, pat = hc :: pt := by
        cases pat
        · simp at hpat
        · simp at hpat
          exact ⟨_, by rw [hpat]⟩
      unfold replaceAllAux
      rw [if_neg (by
        rintro ⟨-, h2⟩
        rw [hptEq] at h2
        simp only [List.cons_append, List.isPrefixOf] at h2
        rw [Bool.and_eq_true, beq_iff_eq] at h2
        exact hX (by rw [h2.1]; exact List.mem_cons_self x t))]
      rw [List.cons_append]
      show x :: replaceAllAux pat [] f (t ++ pat) = x :: t
      rw [ih t (by simpa using Nat.le_of_succ_le_succ hlen)
        (fun hmem => hX (List.mem_cons_of_mem x hmem))]

/-! ## Evaluating `parseFloat` on a dosage number -/


lemma pySign_not_sign {d : Char} (R : Str) (h1 : d ≠ '-') (h2 : d ≠ '+') :
    pySign (d :: R) = (1, d :: R) := by
  unfold pySign
  split
  · rename_i heq
    injection heq with ha hb
    exact absurd ha h1
  · rename_i heq
    injection heq with ha hb
    exact absurd ha h2
  · rfl

lemma parseTail_not_dot (sgn : ℤ) (ip : Str) (r1 : Str) (h : ∀ r2, r1 ≠ '.' :: r2) :
    parseTail sgn ip r1 =
      if ip = [] then none
      else if r1.all isPyWs then some (Rat.divInt (sgn * intOfNat ip) 1) else none := by
  unfold parseTail
  split
  · rename_i r2
    exact absurd rfl (h r2)
  · rfl

lemma lowerS_append (A B : Str) : lowerS (A ++ B) = lowerS A ++ lowerS B :=
  List.map_append asciiLower A B

/-- `parseFloat` on a string of the form digits, optional dot-digits
fraction, arbitrary tail whose head is neither a digit nor a dot: it
succeeds with the decimal value exactly when the tail is all whitespace
(Python `float` tolerates surrounding whitespace only). -/
lemma parseFloat_shape (ds fr T : Str)
    (hds : ds ≠ []) (hdsd : ∀ c ∈ ds, isDigitC c = true)
    (hfr : fr = [] ∨ ∃ fdig, fr = '.' :: fdig ∧ fdig ≠ [] ∧ ∀ c ∈ fdig, isDigitC c = true)
    (hT : ∀ hd, T.head? = some hd → isDigitC hd = false ∧ hd ≠ '.') :
    parseFloat (ds ++ fr ++ T) = if T.all isPyWs then some (dval ds fr) else none := by
  obtain ⟨d, ds', rfl⟩ : ∃ d ds', ds = d :: ds' := by
    cases ds with
    | nil => exact absurd rfl hds
    | cons a b => exact ⟨a, b, rfl⟩
  have hdd : isDigitC d = true := hdsd d (by simp)
  have hd48 := isDigitC_iff.mp hdd
  -- the dosage string survives the leading-whitespace strip and has no sign
  have hA : ((d :: ds') ++ fr ++ T).dropWhile isPyWs = (d :: ds') ++ fr ++ T := by
    rw [show (d :: ds') ++ fr ++ T = d :: (ds' ++ fr ++ T) by simp]
    exact dropWhile_cons_neg _ (digit_not_ws hdd)
  have hsign : pySign ((d :: ds') ++ fr ++ T) = (1, (d :: ds') ++ fr ++ T) := by
    rw [show (d :: ds') ++ fr ++ T = d :: (ds' ++ fr ++ T) by simp]
    exact pySign_not_sign _
      (char_ne_of_toNat (by rw [show ('-').toNat = 45 from rfl]; omega))
      (char_ne_of_toNat (by rw [show ('+').toNat = 43 from rfl]; omega))
  -- the digit run is exactly ds, whatever fr and T are
  have hTtw : T.takeWhile isDigitC = [] := by
    cases T with
    | nil => rfl
    | cons hd tl => exact takeWhile_cons_neg _ (hT hd rfl).1
  have hTdw : T.dropWhile isDigitC = T := by
    cases T with
    | nil => rfl
    | cons hd tl => exact dropWhile_cons_neg _ (hT hd rfl).1
  have htw : (fr ++ T).takeWhile isDigitC = [] := by
    rcases hfr with rfl | ⟨fdig, rfl, -, -⟩
    · simpa using hTtw
    · rw [List.cons_append]
      exact takeWhile_cons_neg _ (by decide)
  have hdw : (fr ++ T).dropWhile isDigitC = fr ++ T := by
    rcases hfr with rfl | ⟨fdig, rfl, -, -⟩
    · simpa using hTdw
    · rw [List.cons_append]
      exact dropWhile_cons_neg _ (by decide)
  have hip : ((d :: ds') ++ fr ++ T).takeWhile isDigitC = d :: ds' := by
    rw [show (d :: ds') ++ fr ++ T = (d :: ds') ++ (fr ++ T) by simp,
      takeWhile_app_all _ hdsd, htw, List.append_nil]
  have hr1 : ((d :: ds') ++ fr ++ T).dropWhile isDigitC = fr ++ T := by
    rw [show (d :: ds') ++ fr ++ T = (d :: ds') ++ (fr ++ T) by simp,
      dropWhile_app_all _ hdsd, hdw]
  have hmain : parseFloat ((d :: ds') ++ fr ++ T) = parseTail 1 (d :: ds') (fr ++ T) := by
    simp only [parseFloat]
    rw [hA, hsign, hip, hr1]
  rw [hmain]
  rcases hfr with rfl | ⟨fdig, rfl, hfne, hfd⟩
  · -- no fractional part
    rw [List.nil_append, parseTail_not_dot 1 (d :: ds') T (by
      intro r2 hr2
      rcases hT '.' (by rw [hr2]; rfl) with ⟨-, hdot⟩
      exact hdot rfl)]
    rw [if_neg (by simp), one_mul]
    rfl
  · -- fractional part '.' :: fdig
    rw [List.cons_append]
    show parseTail 1 (d :: ds') ('.' :: (fdig ++ T)) = _
    simp only [parseTail]
    rw [takeWhile_app_all _ hfd, hTtw, List.append_nil,
      dropWhile_app_all _ hfd, hTdw]
    rw [if_neg (by simp)]
    rw [one_mul]
    rfl

/-! ## The four branches of `normalize_units` on a dosage-pattern match

A string matched by the dosage pattern is digits, an optional fraction,
an optional whitespace character and a unit whose lowercasing is `mg`,
`mcg`, `g` or `ml`.  The lemma computes `normalize_units` on every such
string. -/

lemma normalize_units_master (ds fr sp u : Str)
    (hds : ds ≠ []) (hdsd : ∀ c ∈ ds, isDigitC c = true)
    (hfr : fr = [] ∨ ∃ fdig, fr = '.' :: fdig ∧ fdig ≠ [] ∧ ∀ c ∈ fdig, isDigitC c = true)
    (hsp : sp = [] ∨ ∃ w, sp = [w] ∧ isPyWs w = true) :
    (lowerS u = strL "mcg" →
      normalize_units (ds ++ fr ++ sp ++ u) = format4g (qDiv1000 (dval ds fr)) ++ strL " mg") ∧
    (lowerS u = strL "g" →
      normalize_units (ds ++ fr ++ sp ++ u) = format4g (qMul1000 (dval ds fr)) ++ strL " mg") ∧
    ((lowerS u = strL "mg" ∨ lowerS u = strL "ml") →
      normalize_units (ds ++ fr ++ sp ++ u) = ds ++ fr ++ sp ++ u) := by
  set spf := sp.filter (fun x => x ≠ ' ') with hspf
  -- character-class bookkeeping
  have hds65 : ∀ c ∈ ds, c.toNat < 65 := fun c hc => digit_lt65 (hdsd c hc)
  have hfr65 : ∀ c ∈ fr, c.toNat < 65 := by
    rcases hfr with rfl | ⟨fdig, rfl, -, hfd⟩
    · simp
    · intro c hc
      rcases List.mem_cons.mp hc with rfl | hc
      · rw [show ('.').toNat = 46 from rfl]; omega
      · exact digit_lt65 (hfd c hc)
  have hspws : ∀ c ∈ sp, isPyWs c = true := by
    rcases hsp with rfl | ⟨w, rfl, hw⟩
    · simp
    · intro c hc
      rw [List.mem_singleton] at hc
      exact hc ▸ hw
  have hsp65 : ∀ c ∈ sp, c.toNat < 65 := fun c hc => ws_lt65 (hspws c hc)
  have hspfws : ∀ c ∈ spf, isPyWs c = true := fun c hc =>
    hspws c (List.mem_of_mem_filter hc)
  have hX65 : ∀ c ∈ ds ++ fr ++ spf, c.toNat < 65 := by
    intro c hc
    rcases List.mem_append.mp hc with hc | hc
    · rcases List.mem_append.mp hc with hc | hc
      · exact hds65 c hc
      · exact hfr65 c hc
    · exact ws_lt65 (hspfws c hc)
  have hXm : 'm' ∉ ds ++ fr ++ spf := fun hmem => by
    have := hX65 'm' hmem
    rw [show ('m').toNat = 109 from rfl] at this
    omega
  -- the stripped lowercased value
  have hval : replaceAll [' '] [] (lowerS (ds ++ fr ++ sp ++ u)) =
      (ds ++ fr ++ spf) ++ (lowerS u).filter (fun x => x ≠ ' ') := by
    rw [replaceAll_single, lowerS_append, lowerS_append, lowerS_append,
      List.filter_append, List.filter_append, List.filter_append,
      lowerS_of_small hds65, lowerS_of_small hfr65, lowerS_of_small hsp65,
      List.filter_eq_self.mpr (fun c hc => by
        simp only [decide_eq_true_eq]
        exact char_ne_of_toNat (by
          have := hds65 c hc
          rw [show (' ').toNat = 32 from rfl]
          have := (isDigitC_iff).mp (hdsd c hc)
          omega)),
      List.filter_eq_self.mpr (fun c hc => by
        simp only [decide_eq_true_eq]
        intro hceq
        have := hfr65 c hc
        rcases hfr with rfl | ⟨fdig, rfl, -, hfd⟩
        · simp at hc
        · rcases List.mem_cons.mp hc with rfl | hc2
          · cases hceq
          · have := (isDigitC_iff).mp (hfd c hc2)
            rw [hceq, show (' ').toNat = 32 from rfl] at this
            omega)]
  -- parsing the numeric part, with and without the stray letter m
  have hspf2 : spf = [] ∨ ∃ w, spf = [w] ∧ isPyWs w = true := by
    rcases hsp with rfl | ⟨w, rfl, hw⟩
    · left; simp [hspf]
    · by_cases hw' : w = ' '
      · left; simp [hspf, hw']
      · right; exact ⟨w, by simp [hspf, hw'], hw⟩
  have hwsfacts : ∀ w : Char, isPyWs w = true → isDigitC w = false ∧ w ≠ '.' := by
    intro w hw
    refine ⟨ws_not_digit hw, char_ne_of_toNat ?_⟩
    have := isPyWs_iff.mp hw
    rw [show ('.').toNat = 46 from rfl]
    omega
  have hTsp : ∀ hd, spf.head? = some hd → isDigitC hd = false ∧ hd ≠ '.' := by
    intro hd hh
    rcases hspf2 with h | ⟨w, h, hw⟩
    · rw [h] at hh
      simp at hh
    · rw [h] at hh
      simp at hh
      exact hh ▸ hwsfacts w hw
  have hallsp : spf.all isPyWs = true := List.all_eq_true.mpr hspfws
  have hparseX : parseFloat (ds ++ fr ++ spf) = some (dval ds fr) := by
    rw [parseFloat_shape ds fr spf hds hdsd hfr hTsp, if_pos hallsp]
  have hTm : ∀ hd, (spf ++ ['m']).head? = some hd → isDigitC hd = false ∧ hd ≠ '.' := by
    intro hd hh
    rcases hspf2 with h | ⟨w, h, hw⟩
    · rw [h] at hh
      simp at hh
      exact hh ▸ ⟨by decide, by decide⟩
    · rw [h] at hh
      simp at hh
      exact hh ▸ hwsfacts w hw
  have hparseXm : parseFloat ((ds ++ fr ++ spf) ++ ['m']) = none := by
    rw [show (ds ++ fr ++ spf) ++ ['m'] = ds ++ fr ++ (spf ++ ['m']) by simp,
      parseFloat_shape ds fr (spf ++ ['m']) hds hdsd hfr hTm, if_neg]
    intro hall
    have := List.all_eq_true.mp hall 'm' (by simp)
    rw [show isPyWs 'm' = false from by decide] at this
    cases this
  refine ⟨?_, ?_, ?_⟩
  · -- unit mcg: divide by 1000
    intro hu
    have hvmcg : replaceAll [' '] [] (lowerS (ds ++ fr ++ sp ++ u)) =
        (ds ++ fr ++ spf) ++ strL "mcg" := by
      rw [hval, hu, show (strL "mcg").filter (fun x => x ≠ ' ') = strL "mcg" from by decide]
    simp only [normalize_units]
    rw [hvmcg, if_pos (pyEndsWith_iff.mpr (List.suffix_append _ _)),
      replaceAll_strip_end (show (strL "mcg").head? = some 'm' from rfl) _ hXm,
      hparseX]
  · -- unit g: multiply by 1000
    intro hu
    have hvg : replaceAll [' '] [] (lowerS (ds ++ fr ++ sp ++ u)) =
        (ds ++ fr ++ spf) ++ ['g'] := by
      rw [hval, hu, show (strL "g").filter (fun x => x ≠ ' ') = ['g'] from by decide]
    have hc1 : ¬ (pyEndsWith ((ds ++ fr ++ spf) ++ ['g']) (strL "mcg") = true) := by
      rw [pyEndsWith_iff]
      intro hsuf
      rw [show strL "mcg" = ['m', 'c'] ++ ['g'] from rfl] at hsuf
      have h2 := (snoc_suffix_snoc.mp hsuf).2
      rw [show (['m', 'c'] : Str) = ['m'] ++ ['c'] from rfl] at h2
      exact not_suffix_of_last_big hX65 (by rw [show ('c').toNat = 99 from rfl]; omega) h2
    have hrep : replaceAll (strL "g") [] ((ds ++ fr ++ spf) ++ ['g']) = ds ++ fr ++ spf := by
      rw [show strL "g" = ['g'] from rfl, replaceAll_single, List.filter_append,
        List.filter_eq_self.mpr (fun c hc => by
          simp only [decide_eq_true_eq]
          exact char_ne_of_toNat (by
            have := hX65 c hc
            rw [show ('g').toNat = 103 from rfl]
            omega)),
        show (['g'] : Str).filter (fun x => x ≠ 'g') = [] from by decide, List.append_nil]
    have hc2 : pyEndsWith ((ds ++ fr ++ spf) ++ ['g']) (strL "g") = true := by
      rw [pyEndsWith_iff, show strL "g" = ['g'] from rfl]
      exact List.suffix_append _ _
    simp only [normalize_units]
    rw [hvg, if_neg hc1, hc2, if_pos rfl, hrep, hparseX]
  · -- unit mg or ml: returned unchanged
    rintro (hu | hu)
    · have hvmg : replaceAll [' '] [] (lowerS (ds ++ fr ++ sp ++ u)) =
          (ds ++ fr ++ spf) ++ ['m', 'g'] := by
        rw [hval, hu, show (strL "mg").filter (fun x => x ≠ ' ') = ['m', 'g'] from by decide]
      have hc1 : ¬ (pyEndsWith ((ds ++ fr ++ spf) ++ ['m', 'g']) (strL "mcg") = true) := by
        rw [pyEndsWith_iff]
        intro hsuf
        rw [show strL "mcg" = ['m', 'c'] ++ ['g'] from rfl,
          show (ds ++ fr ++ spf) ++ ['m', 'g'] = ((ds ++ fr ++ spf) ++ ['m']) ++ ['g'] by simp]
          at hsuf
        have h2 := (snoc_suffix_snoc.mp hsuf).2
        rw [show (['m', 'c'] : Str) = ['m'] ++ ['c'] from rfl] at h2
        have h3 := (snoc_suffix_snoc.mp h2).1
        exact char_ne_of_toNat (by decide) h3
      have hc2 : pyEndsWith ((ds ++ fr ++ spf) ++ ['m', 'g']) (strL "g") = true := by
        rw [pyEndsWith_iff,
          show (ds ++ fr ++ spf) ++ ['m', 'g'] = ((ds ++ fr ++ spf) ++ ['m']) ++ ['g'] by simp]
        exact List.suffix_append _ _
      have hrep : replaceAll (strL "g") [] ((ds ++ fr ++ spf) ++ ['m', 'g']) =
          (ds ++ fr ++ spf) ++ ['m'] := by
        rw [show strL "g" = ['g'] from rfl, replaceAll_single, List.filter_append,
          List.filter_eq_self.mpr (fun c hc => by
            simp only [decide_eq_true_eq]
            exact char_ne_of_toNat (by
              have := hX65 c hc
              rw [show ('g').toNat = 103 from rfl]
              omega)),
          show (['m', 'g'] : Str).filter (fun x => x ≠ 'g') = ['m'] from by decide]
      simp only [normalize_units]
      rw [hvmg, if_neg hc1, hc2, if_pos rfl, hrep, hparseXm]
    · have hvml : replaceAll [' '] [] (lowerS (ds ++ fr ++ sp ++ u)) =
          (ds ++ fr ++ spf) ++ ['m', 'l'] := by
        rw [hval, hu, show (strL "ml").filter (fun x => x ≠ ' ') = ['m', 'l'] from by decide]
      have hc1 : ¬ (pyEndsWith ((ds ++ fr ++ spf) ++ ['m', 'l']) (strL "mcg") = true) := by
        rw [pyEndsWith_iff]
        intro hsuf
        rw [show strL "mcg" = ['m', 'c'] ++ ['g'] from rfl,
          show (ds ++ fr ++ spf) ++ ['m', 'l'] = ((ds ++ fr ++ spf) ++ ['m']) ++ ['l'] by simp]
          at hsuf
        exact char_ne_of_toNat (by decide) (snoc_suffix_snoc.mp hsuf).1
      have hc2 : ¬ (pyEndsWith ((ds ++ fr ++ spf) ++ ['m', 'l']) (strL "g") = true) := by
        rw [pyEndsWith_iff]
        intro hsuf
        rw [show strL "g" = ([] : Str) ++ ['g'] from rfl,
          show (ds ++ fr ++ spf) ++ ['m', 'l'] = ((ds ++ fr ++ spf) ++ ['m']) ++ ['l'] by simp]
          at hsuf
        exact char_ne_of_toNat (by decide) (snoc_suffix_snoc.mp hsuf).1
      simp only [normalize_units]
      rw [hvml, if_neg hc1, if_neg hc2]

/-! ## Remaining bridges -/

lemma mid_of_pref {A B : Str} (h : A <+: B) : A <:+: B := by
  obtain ⟨t, ht⟩ := h
  exact ⟨[], t, by simp [ht]⟩

lemma mid_exists_drop {A B : Str} (h : A <:+: B) : ∃ j, A <+: B.drop j := by
  obtain ⟨s, t, hst⟩ := h
  refine ⟨s.length, ?_⟩
  rw [← hst, List.append_assoc, List.drop_left]
  exact List.prefix_append A t

/-- Python substring membership agrees with list-infix. -/
lemma strContains_iff (hay needle : Str) : strContains hay needle = true ↔ needle <:+: hay := by
  unfold strContains
  cases h : pyFind hay needle with
  | some k =>
    simp only [Option.isSome_some, true_iff]
    exact mid_of_drop (mid_of_pref (pyFind_eq_some h).1)
  | none =>
    simp only [Option.isSome_none, Bool.false_eq_true, false_iff]
    intro hin
    obtain ⟨j, hj⟩ := mid_exists_drop hin
    exact pyFind_eq_none h j hj

lemma qDiv1000_eq (q : ℚ) : qDiv1000 q = q / 1000 := by
  rw [qDiv1000, Rat.divInt_eq_div]
  push_cast
  rw [← div_div, Rat.num_div_den]

lemma qMul1000_eq (q : ℚ) : qMul1000 q = q * 1000 := by
  rw [qMul1000, Rat.divInt_eq_div]
  push_cast
  rw [mul_div_right_comm, Rat.num_div_den]

/-! # The claims -/

/-- Claim C1, amended: for every input sequence of labeled spans, each
span's label is uppercased and bucketed — spans whose normalized label is
a symptom label contribute their text to the symptoms set, spans whose
normalized label is a medication label produce medication records, and
every other span is appended to the other-entities bucket tagged with its
NORMALIZED (uppercased) label and its text.  (The original claim said the
bucket keeps the original label; the code stores the uppercased one, see
the counterexample.) -/
theorem C1_extract_buckets (spans : List Ent) (text : Str) :
    (extract spans text).symptoms = dedupF ((spans.filter isSymLabel).map Ent.word) ∧
    (extract spans text).medications = dedupF ((spans.filter isMedLabel).map (buildMed text)) ∧
    (extract spans text).other_medical_entities =
      (spans.filter fun e => ! isSymLabel e && ! isMedLabel e).map
        (fun e => { label := upperS e.entity_group, value := e.word }) :=
  ⟨extract_symptoms_eq spans text, extract_medications_eq spans text,
    extract_other_eq spans text⟩

/-- Claim C1, counterexample: a span labeled `Location` falls in neither
label list, and the other-entities bucket records the uppercased
`LOCATION`, not the original label `Location` as the claim states. -/
theorem C1_original_label_cex :
    isSymLabel ⟨strL "park", strL "Location", 0⟩ = false ∧
    isMedLabel ⟨strL "park", strL "Location", 0⟩ = false ∧
    (extract [⟨strL "park", strL "Location", 0⟩] (strL "park")).other_medical_entities =
      [⟨strL "LOCATION", strL "park"⟩] ∧
    strL "LOCATION" ≠ strL "Location" := by
  refine ⟨by decide, by decide, ?_, by decide⟩
  decide

/-- Claim C6: the medications sequence never contains two field-wise
equal records — a new record is appended only when absent, so the first
occurrence wins; membership is exactly membership in the per-span built
records. -/
theorem C6_medications_dedup (spans : List Ent) (text : Str) :
    ((extract spans text).medications).Nodup ∧
    ∀ m : Med, m ∈ (extract spans text).medications ↔
      m ∈ (spans.filter isMedLabel).map (buildMed text) := by
  constructor
  · rw [extract_medications_eq]
    exact dedupF_nodup _
  · intro m
    rw [extract_medications_eq, mem_dedupF]

/-- Claim C7: the therapy scan is computed from the whole source text
only, independently of the labeler spans; its result is duplicate-free;
and on the given sentence it finds exactly `post-op chemo`. -/
theorem C7_therapy_scan (spans : List Ent) (text : Str) :
    (extract spans text).therapies = extract_therapies text ∧
    (extract_therapies text).Nodup ∧
    extract_therapies (strL "Patient underwent post-op chemo last week") =
      [strL "post-op chemo"] :=
  ⟨rfl, dedupF_nodup _, by decide⟩

/-- Claim C9, counterexample: a span whose `start_offset` (1000) is far
out of bounds for its 16-character source text does not make extraction
raise — the windowed slices clamp to empty and extraction returns an
ordinary result (the Python code path contains no possible exception:
slicing out of range yields an empty string). -/
theorem C9_no_raise_cex :
    (strL "No aspirin given").length < 1000 ∧
    extract [⟨strL "aspirin", strL "DRUG", 1000⟩] (strL "No aspirin given") =
      ⟨[], [⟨strL "aspirin", none, none, none, true⟩], [], []⟩ := by
  refine ⟨by decide, ?_⟩
  decide

/-- Claim C9, amended: extraction never raises; a `start_offset` whose
attribute window lies entirely beyond the end of the source text is
handled by clamping — the window is empty, so the dosage, frequency and
route fields are null and the record is still built. -/
theorem C9_out_of_bounds_clamps (text : Str) (e : Ent)
    (h : text.length + 50 ≤ e.start) :
    buildMed text e = ⟨e.word, none, none, none, detect_negation e.word text⟩ := by
  have hseg : pySlice text (e.start - 50) (e.start + 50) = [] := by
    unfold pySlice
    refine List.drop_eq_nil_of_le ?_
    rw [List.length_take]
    omega
  unfold buildMed extract_pattern_nearby
  rw [hseg, show reSearch dose_pattern [] = none from by decide,
    show reSearch frequency_pattern [] = none from by decide,
    show reSearch route_pattern [] = none from by decide]

/-- Witness for the amended claim C9 at a concrete out-of-bounds span. -/
theorem C9_out_of_bounds_witness :
    (strL "No aspirin given").length + 50 ≤ 1000 ∧
    buildMed (strL "No aspirin given") ⟨strL "aspirin", strL "DRUG", 1000⟩ =
      ⟨strL "aspirin", none, none, none,
        detect_negation (strL "aspirin") (strL "No aspirin given")⟩ :=
  ⟨by decide, C9_out_of_bounds_clamps _ _ (by decide)⟩

/-- Claim C10: every therapy the scan returns is a verbatim contiguous
piece of the source text (original capitalization preserved), and
deduplication compares exact strings, so a text containing `Chemo` and
`chemo` yields both variants as separate entries. -/
theorem C10_therapy_case_sensitive :
    (∀ text m : Str, m ∈ extract_therapies text → m <:+: text) ∧
    strL "Chemo" ∈ extract_therapies (strL "Chemo then chemo") ∧
    strL "chemo" ∈ extract_therapies (strL "Chemo then chemo") ∧
    strL "Chemo" ≠ strL "chemo" :=
  ⟨fun _ _ h => mem_extract_therapies h, by decide, by decide, by decide⟩

/-- Witness for claim C10 at a concrete text. -/
theorem C10_witness :
    strL "post-op chemo" ∈
      extract_therapies (strL "Patient underwent post-op chemo last week") ∧
    strL "post-op chemo" <:+: strL "Patient underwent post-op chemo last week" :=
  ⟨by decide, C10_therapy_case_sensitive.1 _ _ (by decide)⟩

/-- Claim C2: on every dosage-pattern match — digits, optional fraction,
optional whitespace, unit — `normalize_units` divides an `mcg` value by
1000 and relabels `mg`, multiplies a `g` value by 1000 and relabels `mg`,
and passes `mg` and `ml` dosages through unchanged; in particular on the
three concrete inputs of the specification. -/
theorem C2_normalize_units_spec :
    (∀ ds fr sp u : Str, ds ≠ [] → (∀ c ∈ ds, isDigitC c = true) →
      (fr = [] ∨ ∃ fdig, fr = '.' :: fdig ∧ fdig ≠ [] ∧ ∀ c ∈ fdig, isDigitC c = true) →
      (sp = [] ∨ ∃ w, sp = [w] ∧ isPyWs w = true) →
      (lowerS u = strL "mcg" →
        normalize_units (ds ++ fr ++ sp ++ u) = format4g (dval ds fr / 1000) ++ strL " mg") ∧
      (lowerS u = strL "g" →
        normalize_units (ds ++ fr ++ sp ++ u) = format4g (dval ds fr * 1000) ++ strL " mg") ∧
      ((lowerS u = strL "mg" ∨ lowerS u = strL "ml") →
        normalize_units (ds ++ fr ++ sp ++ u) = ds ++ fr ++ sp ++ u)) ∧
    normalize_units (strL "500mcg") = strL "0.5 mg" ∧
    normalize_units (strL "2g") = strL "2000 mg" ∧
    normalize_units (strL "10ml") = strL "10ml" := by
  refine ⟨?_, by decide, by decide, by decide⟩
  intro ds fr sp u hds hdsd hfr hsp
  have h := normalize_units_master ds fr sp u hds hdsd hfr hsp
  rw [qDiv1000_eq, qMul1000_eq] at h
  exact h

/-- Witness for claim C2 at a concrete mcg dosage. -/
theorem C2_witness :
    normalize_units (strL "250" ++ [] ++ [] ++ strL "mcg") =
      format4g (dval (strL "250") [] / 1000) ++ strL " mg" :=
  (C2_normalize_units_spec.1 (strL "250") [] [] (strL "mcg") (by decide) (by decide)
    (Or.inl rfl) (Or.inl rfl)).1 (by decide)

/-- Claim C3: on every dosage-pattern match the output of
`normalize_units` is expressed in unit `mg` or `ml` (its lowercasing ends
in one of the two), and normalizing a dosage already in `mg` is the exact
identity. -/
theorem C3_canonical_units :
    ∀ ds fr sp u : Str, ds ≠ [] → (∀ c ∈ ds, isDigitC c = true) →
      (fr = [] ∨ ∃ fdig, fr = '.' :: fdig ∧ fdig ≠ [] ∧ ∀ c ∈ fdig, isDigitC c = true) →
      (sp = [] ∨ ∃ w, sp = [w] ∧ isPyWs w = true) →
      (lowerS u = strL "mg" ∨ lowerS u = strL "mcg" ∨ lowerS u = strL "g" ∨
        lowerS u = strL "ml") →
      (strL "mg" <:+ lowerS (normalize_units (ds ++ fr ++ sp ++ u)) ∨
        strL "ml" <:+ lowerS (normalize_units (ds ++ fr ++ sp ++ u))) ∧
      (lowerS u = strL "mg" → normalize_units (ds ++ fr ++ sp ++ u) = ds ++ fr ++ sp ++ u) := by
  intro ds fr sp u hds hdsd hfr hsp hu
  obtain ⟨h1, h2, h3⟩ := normalize_units_master ds fr sp u hds hdsd hfr hsp
  refine ⟨?_, fun hmg => h3 (Or.inl hmg)⟩
  rcases hu with hu | hu | hu | hu
  · left
    rw [h3 (Or.inl hu), lowerS_append, hu]
    exact List.suffix_append _ _
  · left
    rw [h1 hu, lowerS_append, show lowerS (strL " mg") = strL " mg" from by decide]
    exact suffix_app_left _ (by decide)
  · left
    rw [h2 hu, lowerS_append, show lowerS (strL " mg") = strL " mg" from by decide]
    exact suffix_app_left _ (by decide)
  · right
    rw [h3 (Or.inr hu), lowerS_append, hu]
    exact List.suffix_append _ _

/-- Witness for claim C3 at a concrete ml dosage. -/
theorem C3_witness :
    (strL "mg" <:+ lowerS (normalize_units (strL "10" ++ [] ++ [] ++ strL "ml")) ∨
      strL "ml" <:+ lowerS (normalize_units (strL "10" ++ [] ++ [] ++ strL "ml"))) ∧
    (lowerS (strL "ml") = strL "mg" →
      normalize_units (strL "10" ++ [] ++ [] ++ strL "ml") =
        strL "10" ++ [] ++ [] ++ strL "ml") :=
  C3_canonical_units (strL "10") [] [] (strL "ml") (by decide) (by decide)
    (Or.inl rfl) (Or.inl rfl) (Or.inr (Or.inr (Or.inr (by decide))))


/-- Claim C4: the Attribute Linker searches exactly the substring
`[index - window, index + window)` clamped to the text bounds (the
window's length and characters are those of the clamped interval), and
returns the text of the match at the leftmost matching position, or null
when no position of the window matches. -/
theorem C4_attribute_linker_spec (p : RePattern) (text : Str) (index window : Nat) :
    extract_pattern_nearby p text index window = reSearch p (linkerWindow text index window) ∧
    (linkerWindow text index window).length =
      min (index + window) text.length - (index - window) ∧
    (∀ j < (linkerWindow text index window).length,
      (linkerWindow text index window)[j]? = text[(index - window) + j]?) ∧
    (extract_pattern_nearby p text index window = none ↔
      ∀ i ≤ (linkerWindow text index window).length,
        p.matchAt (prevAtP none (linkerWindow text index window) i)
          ((linkerWindow text index window).drop i) = none) ∧
    (∀ m, extract_pattern_nearby p text index window = some m →
      ∃ i, i ≤ (linkerWindow text index window).length ∧
        ∃ L, p.matchAt (prevAtP none (linkerWindow text index window) i)
            ((linkerWindow text index window).drop i) = some L ∧
          m = ((linkerWindow text index window).drop i).take L ∧
          ∀ j < i, p.matchAt (prevAtP none (linkerWindow text index window) j)
            ((linkerWindow text index window).drop j) = none) := by
  refine ⟨rfl, ?_, ?_, ?_, ?_⟩
  · simp [linkerWindow, pySlice, List.length_drop, List.length_take]
  · intro j hj
    have hj' : j < min (index + window) text.length - (index - window) := by
      simpa [linkerWindow, pySlice, List.length_drop, List.length_take] using hj
    simp only [linkerWindow, pySlice, List.getElem?_drop, List.getElem?_take]
    rw [if_pos (by omega)]
  · exact reSearchAux_eq_none p (linkerWindow text index window) none
  · intro m hm
    exact reSearchAux_eq_some p (linkerWindow text index window) none m hm

/-- Witness for claim C4: the dosage pattern inside a concrete window. -/
theorem C4_witness :
    ∃ i, i ≤ (linkerWindow (strL "aspirin 500mg oral") 0 50).length ∧
      ∃ L, dose_pattern.matchAt (prevAtP none (linkerWindow (strL "aspirin 500mg oral") 0 50) i)
          ((linkerWindow (strL "aspirin 500mg oral") 0 50).drop i) = some L ∧
        strL "500mg" = ((linkerWindow (strL "aspirin 500mg oral") 0 50).drop i).take L ∧
        ∀ j < i, dose_pattern.matchAt
            (prevAtP none (linkerWindow (strL "aspirin 500mg oral") 0 50) j)
            ((linkerWindow (strL "aspirin 500mg oral") 0 50).drop j) = none :=
  (C4_attribute_linker_spec dose_pattern (strL "aspirin 500mg oral") 0 50).2.2.2.2
    (strL "500mg") (by decide)

/-- Claim C5: a mention with no case-insensitive occurrence in the text
is reported not negated; otherwise the reported index is the first
occurrence, and the mention is negated exactly when some negation cue is
a substring of the 25 characters before that occurrence (window clamped
to the text start). -/
theorem C5_negation_spec (phrase text : Str) :
    (pyFind (lowerS text) (lowerS phrase) = none → detect_negation phrase text = false) ∧
    ∀ idx, pyFind (lowerS text) (lowerS phrase) = some idx →
      (lowerS phrase <+: (lowerS text).drop idx) ∧
      (∀ j < idx, ¬ lowerS phrase <+: (lowerS text).drop j) ∧
      (detect_negation phrase text = true ↔
        ∃ cue ∈ negation_cues, cue <:+: pySlice (lowerS text) (idx - 25) idx) := by
  constructor
  · intro h
    simp [detect_negation, h]
  · intro idx h
    obtain ⟨hp, hmin⟩ := pyFind_eq_some h
    refine ⟨hp, hmin, ?_⟩
    simp only [detect_negation, h, List.any_eq_true, strContains_iff]

/-- Witness for claim C5 at a concrete negated mention. -/
theorem C5_witness :
    (lowerS (strL "fever") <+: (lowerS (strL "Patient denies fever")).drop 15) ∧
    (∀ j < 15, ¬ lowerS (strL "fever") <+: (lowerS (strL "Patient denies fever")).drop j) ∧
    (detect_negation (strL "fever") (strL "Patient denies fever") = true ↔
      ∃ cue ∈ negation_cues,
        cue <:+: pySlice (lowerS (strL "Patient denies fever")) (15 - 25) 15) :=
  (C5_negation_spec (strL "fever") (strL "Patient denies fever")).2 15 (by decide)

/-- Claim C8: a line is treated as a heading exactly when it starts with
the bold-markup prefix and ends with the bold-markup suffix or a colon;
blank lines are skipped without closing the open section; and on the
two-section example the parser yields the expected map with headings
stripped of markup. -/
theorem C8_section_parser_spec :
    parse_summary_to_dict (strL "**VITALS:**\nBP 120/80\n\n**NOTES:**\nNone.") =
      [(strL "VITALS", strL "BP 120/80"), (strL "NOTES", strL "None.")] ∧
    (∀ (st : PState) (line : Str), pyStrip line = [] → processLine st line = st) ∧
    (∀ line : Str, isHeadingLine line = true ↔
      (strL "**" <+: line ∧ (strL "**" <:+ line ∨ strL ":" <:+ line))) ∧
    (∀ (st : PState) (line : Str), pyStrip line ≠ [] → isHeadingLine (pyStrip line) = true →
      (processLine st line).current = some (headingName (pyStrip line)) ∧
      (processLine st line).buffer = []) ∧
    (∀ (st : PState) (line : Str), pyStrip line ≠ [] → isHeadingLine (pyStrip line) = false →
      processLine st line = { st with buffer := st.buffer ++ [pyStrip line] }) := by
  refine ⟨by decide, ?_, ?_, ?_, ?_⟩
  · intro st line h
    simp [processLine, h]
  · intro line
    simp [isHeadingLine, pyStartsWith, Bool.and_eq_true, Bool.or_eq_true,
      isPrefixOf_true_iff, pyEndsWith_iff]
  · intro st line hne hh
    simp [processLine, hne, hh]
  · intro st line hne hh
    simp [processLine, hne, hh]

/-- Witness for claim C8 on a concrete heading line. -/
theorem C8_witness :
    (processLine ⟨[], none, []⟩ (strL "**VITALS:**")).current =
        some (headingName (pyStrip (strL "**VITALS:**"))) ∧
    (processLine ⟨[], none, []⟩ (strL "**VITALS:**")).buffer = [] :=
  C8_section_parser_spec.2.2.2.1 ⟨[], none, []⟩ (strL "**VITALS:**") (by decide) (by decide)
